import Mathlib

/-!
# Verification of `tagging/utils.py` (django-tagging)

Shallow embedding of the tag-string parser (`parse_tag_input`,
`split_strip`), the serializer (`edit_string_for_tags`) and the
tag-cloud weight calculator (`_calculate_thresholds`,
`_calculate_tag_weight`, `calculate_cloud`).

Strings are modelled as Lean `String` / `List Char`; Python floats are
modelled as exact rationals (`ℚ`); `math.log` is an oracle parameter
`lg : ℚ → ℚ` whose domain errors (argument `≤ 0`) are made explicit,
matching Python's `ValueError: math domain error`.
-/

namespace Tagging

/-- Python's `str.isspace` / default-strip whitespace test, for the ASCII
characters that can appear in tag input. -/
def isPySpace (c : Char) : Bool :=
  c = ' ' || c = '\t' || c = '\n' || c = '\r' || c = '\x0b' || c = '\x0c'

/-- Python's `c in s` membership test on a list of characters. -/
def hasChar (l : List Char) (c : Char) : Bool :=
  l.any (fun x => decide (x = c))

/-- Python's `str.split(d)` for a single-character delimiter: the fragments
between occurrences of `d`, empty fragments kept (`"".split(d) == [""]`). -/
def splitOnChar (d : Char) : List Char → List (List Char)
  | [] => [[]]
  | c :: cs =>
    if c = d then [] :: splitOnChar d cs
    else
      match splitOnChar d cs with
      | [] => [[c]]
      | w :: ws => (c :: w) :: ws

/-- Python's `str.strip()` with no argument: drop whitespace from both ends. -/
def pyStrip (l : List Char) : List Char :=
  ((l.dropWhile isPySpace).reverse.dropWhile isPySpace).reverse

/-- `split_strip(input, delimiter)`: split on `delimiter`, strip each piece,
keep the non-empty ones. -/
def split_strip (delimiter : Char) (input : List Char) : List String :=
  (((splitOnChar delimiter input).map pyStrip).filter (fun w => !w.isEmpty)).map String.mk

/-- Lexicographic code-point comparison on character lists, Python's `<=`
on strings. -/
def charListLe : List Char → List Char → Bool
  | [], _ => true
  | _ :: _, [] => false
  | a :: as, b :: bs =>
    if a.toNat < b.toNat then true
    else if b.toNat < a.toNat then false
    else charListLe as bs

/-- Python's `<=` on strings (code-point lexicographic order). -/
def strLe (a b : String) : Bool :=
  charListLe a.data b.data

/-- Python's `sorted(set(ws))` for a list of strings: the distinct elements
in lexicographic (code-point) order. -/
def pySortedSet (ws : List String) : List String :=
  List.insertionSort (fun a b => strLe a b = true) ws.dedup

/-- The character-scanning loop of `parse_tag_input` (the `while 1` loop
together with the `except StopIteration` handler), fused into a single
state machine.  `openQuote` tells whether we are inside the inner
"find the matching quote" loop; `buffer`, `words`, `tbs`
(= `to_be_split`) and `slc` (= `saw_loose_comma`) are the loop's state.
Returns the final `(words, to_be_split, saw_loose_comma)`. -/
def scan : List Char → Bool → List Char → Bool → List String → List (List Char) →
    List String × List (List Char) × Bool
  | [], openQuote, buffer, slc, words, tbs =>
    -- StopIteration: an unterminated quoted buffer is treated as unquoted,
    -- and an embedded comma in it forces comma splitting.
    if buffer.isEmpty then (words, tbs, slc)
    else if openQuote then (words, tbs ++ [buffer], slc || hasChar buffer ',')
    else (words, tbs ++ [buffer], slc)
  | c :: cs, openQuote, buffer, slc, words, tbs =>
    if openQuote then
      if c = '"' then
        -- closing quote: keep the stripped buffer as a word if non-empty
        scan cs false [] slc
          (if (pyStrip buffer).isEmpty then words
           else words ++ [String.mk (pyStrip buffer)]) tbs
      else scan cs true (buffer ++ [c]) slc words tbs
    else
      if c = '"' then
        -- opening quote: flush the pending unquoted buffer to to_be_split
        scan cs true [] slc words (if buffer.isEmpty then tbs else tbs ++ [buffer])
      else scan cs false (buffer ++ [c]) (slc || decide (c = ',')) words tbs

/-- `parse_tag_input(input)`: parse free-form tag input into a sorted list of
unique tag names. -/
def parse_tag_input (input : String) : List String :=
  let cs := input.data
  if cs.isEmpty then []
  else if !hasChar cs ',' && !hasChar cs '"' then
    pySortedSet (split_strip ' ' cs)
  else
    let res := scan cs false [] false [] []
    let delimiter := if res.2.2 then ',' else ' '
    pySortedSet (res.1 ++ (res.2.1.map (split_strip delimiter)).flatten)

example : parse_tag_input "\"a,b" = ["a", "b"] := by decide

example : parse_tag_input "b a a" = ["a", "b"] := by decide

example : parse_tag_input "\"a,b\" c" = ["a,b", "c"] := by decide

example : parse_tag_input "" = [] := rfl

/-- Modelled from the spec: Python's no-argument `str.split()` ("split on any
whitespace"): maximal whitespace-free non-empty runs, in order.  Used only to
state the spec's `sorted(set(s.split()))` claim. -/
def pySplitWhitespaceAux : List Char → List Char → List String
  | [], [] => []
  | [], buf => [String.mk buf.reverse]
  | c :: cs, buf =>
    if isPySpace c then
      if buf.isEmpty then pySplitWhitespaceAux cs []
      else String.mk buf.reverse :: pySplitWhitespaceAux cs []
    else pySplitWhitespaceAux cs (c :: buf)

/-- Modelled from the spec: `s.split()` with no argument (whitespace runs). -/
def pySplitWhitespace (l : List Char) : List String :=
  pySplitWhitespaceAux l []

/-- One iteration of the `for tag in tags` loop of `edit_string_for_tags`:
the accumulator carries `(names, use_commas)`. -/
def esftStep (acc : List (List Char) × Bool) (name : List Char) :
    List (List Char) × Bool :=
  if hasChar name ',' then (acc.1 ++ ['"' :: (name ++ ['"'])], acc.2)
  else (acc.1 ++ [name], acc.2 || hasChar name ' ')

/-- Python's `glue.join(names)`. -/
def joinGlue (glue : List Char) : List (List Char) → List Char
  | [] => []
  | [n] => n
  | n :: ns => n ++ glue ++ joinGlue glue ns

/-- `edit_string_for_tags(tags)`: render a list of tag names back into an
editable string.  (Tag objects are represented by their `name` strings.) -/
def edit_string_for_tags (tags : List String) : String :=
  let acc := (tags.map String.data).foldl esftStep ([], false)
  let glue := if acc.2 then [',', ' '] else [' ']
  let result := joinGlue glue acc.1
  String.mk (if acc.1.length == 1 && acc.2 then '"' :: (result ++ ['"']) else result)

example : edit_string_for_tags ["foo bar"] = "\"foo bar\"" := by decide

example : edit_string_for_tags ["a,b", "c d", "e"] = "\"a,b\", c d, e" := by decide

example : edit_string_for_tags ["a", "b"] = "a b" := by decide

/-! ## Tag-cloud weight calculator -/

/-- The errors the Python cloud code can raise: `math domain error`
(`math.log` of a non-positive number), the `ValueError` naming an invalid
distribution, and `ZeroDivisionError` (`steps == 0`). -/
inductive PyError where
  | domainError : PyError
  | invalidDistribution : Int → PyError
  | zeroDivision : PyError
deriving DecidableEq

deriving instance DecidableEq for Except

def LOGARITHMIC : Int := 1

def LINEAR : Int := 2

/-- A tag as seen by `calculate_cloud`: a `count` and a mutable `font_size`
attribute (`none` when the attribute has not been set). -/
structure Tag where
  count : ℚ
  font_size : Option Nat
deriving DecidableEq

/-- Python's `min(counts)` on a non-empty list (0 as a junk default). -/
def listMin : List ℚ → ℚ
  | [] => 0
  | x :: xs => xs.foldl min x

/-- Python's `max(counts)` on a non-empty list (0 as a junk default). -/
def listMax : List ℚ → ℚ
  | [] => 0
  | x :: xs => xs.foldl max x

/-- `_calculate_thresholds(min_weight, max_weight, steps)`:
`[min_weight + i * delta for i in range(1, steps + 1)]`, reindexed over
`range steps` (entry `i` of the list is `min_weight + (i+1) * delta`). -/
def calculateThresholds (min_weight max_weight : ℚ) (steps : Nat) : List ℚ :=
  (List.range steps).map
    (fun (i : Nat) =>
      min_weight + ((i : ℚ) + 1) * ((max_weight - min_weight) / (steps : ℚ)))

/-- `_calculate_tag_weight(weight, max_weight, distribution)`.  `lg` is the
oracle for `math.log`; its Python domain errors (argument `≤ 0`, in the
evaluation order `math.log(weight)` then `math.log(max_weight)`) are
explicit. -/
def calculateTagWeight (lg : ℚ → ℚ) (weight max_weight : ℚ) (distribution : Int) :
    Except PyError ℚ :=
  if distribution = LINEAR ∨ max_weight = 1 then .ok weight
  else if distribution = LOGARITHMIC then
    if weight ≤ 0 then .error .domainError
    else if max_weight ≤ 0 then .error .domainError
    else .ok (min (lg weight * max_weight / lg max_weight) max_weight)
  else .error (.invalidDistribution distribution)

/-- The inner `for i in range(steps)` loop of `calculate_cloud`: the 1-based
index of the first threshold with `tag_weight <= thresholds[i]`, if any. -/
def findBucket (w : ℚ) : List ℚ → Option Nat
  | [] => none
  | th :: rest => if w ≤ th then some 1 else (findBucket w rest).map (· + 1)

/-- Set `font_size` on a tag from its transformed weight (leaving the
attribute untouched when no threshold matches, as the Python loop does). -/
def applyFont (thresholds : List ℚ) (w : ℚ) (t : Tag) : Tag :=
  match findBucket w thresholds with
  | some f => { t with font_size := some f }
  | none => t

/-- The `for tag in tags` loop of `calculate_cloud`: the body can raise, and
the first raise aborts the loop. -/
def cloudMap (f : Tag → Except PyError Tag) : List Tag → Except PyError (List Tag)
  | [] => .ok []
  | t :: ts =>
    match f t with
    | .error e => .error e
    | .ok t' =>
      match cloudMap f ts with
      | .error e => .error e
      | .ok ts' => .ok (t' :: ts')

/-- `calculate_cloud(tags, steps, distribution)`.  Mutation of the tag
objects is modelled by returning the updated list; a raised exception by
`Except.error`.  The `steps = 0` check models the `ZeroDivisionError` that
`_calculate_thresholds` would raise before the loop runs. -/
def calculate_cloud (lg : ℚ → ℚ) (tags : List Tag) (steps : Nat) (distribution : Int) :
    Except PyError (List Tag) :=
  match tags with
  | [] => .ok []
  | t :: ts =>
    if steps = 0 then .error .zeroDivision
    else
      let counts := (t :: ts).map Tag.count
      let min_weight := listMin counts
      let max_weight := listMax counts
      let thresholds := calculateThresholds min_weight max_weight steps
      cloudMap (fun tag =>
        match calculateTagWeight lg tag.count max_weight distribution with
        | .error e => .error e
        | .ok w => .ok (applyFont thresholds w tag)) (t :: ts)

example :
    calculate_cloud (fun _ => 0) [⟨1, none⟩] 4 5 = .ok [⟨1, some 1⟩] := by
  norm_num [calculate_cloud, cloudMap, calculateTagWeight, calculateThresholds,
    listMin, listMax, applyFont, findBucket, LINEAR, LOGARITHMIC, List.range_succ]

example :
    calculate_cloud (fun _ => 0) [⟨0, none⟩, ⟨1, none⟩] 4 LOGARITHMIC =
      .ok [⟨0, some 1⟩, ⟨1, some 4⟩] := by
  norm_num [calculate_cloud, cloudMap, calculateTagWeight, calculateThresholds,
    listMin, listMax, applyFont, findBucket, LINEAR, LOGARITHMIC, List.range_succ]

example :
    calculate_cloud (fun _ => 0) [⟨2, none⟩] 4 5 =
      .error (.invalidDistribution 5) := by
  norm_num [calculate_cloud, cloudMap, calculateTagWeight, calculateThresholds,
    listMin, listMax, applyFont, findBucket, LINEAR, LOGARITHMIC, List.range_succ]

example :
    calculate_cloud (fun _ => 0) [⟨1, none⟩, ⟨2, none⟩] 4 LINEAR =
      .ok [⟨1, some 1⟩, ⟨2, some 4⟩] := by
  norm_num [calculate_cloud, cloudMap, calculateTagWeight, calculateThresholds,
    listMin, listMax, applyFont, findBucket, LINEAR, LOGARITHMIC, List.range_succ]

/-! ## Order facts for the sorting relation -/

theorem charListLe_cons {a b : Char} {as bs : List Char} :
    charListLe (a :: as) (b :: bs) = true ↔
      (a.toNat < b.toNat ∨ (a.toNat = b.toNat ∧ charListLe as bs = true)) := by
  simp only [charListLe]
  by_cases h1 : a.toNat < b.toNat
  · simp [h1]
  · by_cases h2 : b.toNat < a.toNat
    · simp [h1, h2, show a.toNat ≠ b.toNat by omega]
    · simp [h1, h2, show a.toNat = b.toNat by omega]

theorem charListLe_total : ∀ as bs : List Char,
    charListLe as bs = true ∨ charListLe bs as = true
  | [], _ => Or.inl rfl
  | _ :: _, [] => Or.inr rfl
  | a :: as, b :: bs => by
    rw [charListLe_cons, charListLe_cons]
    rcases Nat.lt_trichotomy a.toNat b.toNat with h | h | h
    · exact Or.inl (Or.inl h)
    · rcases charListLe_total as bs with ih | ih
      · exact Or.inl (Or.inr ⟨h, ih⟩)
      · exact Or.inr (Or.inr ⟨h.symm, ih⟩)
    · exact Or.inr (Or.inl h)

theorem charListLe_trans : ∀ as bs cs : List Char,
    charListLe as bs = true → charListLe bs cs = true → charListLe as cs = true
  | [], _, _, _, _ => rfl
  | _ :: _, [], _, h, _ => by simp [charListLe] at h
  | _ :: _, _ :: _, [], _, h => by simp [charListLe] at h
  | a :: as, b :: bs, c :: cs, h1, h2 => by
    rw [charListLe_cons] at h1 h2 ⊢
    rcases h1 with h1 | ⟨h1e, h1r⟩
    · rcases h2 with h2 | ⟨h2e, _⟩
      · exact Or.inl (by omega)
      · exact Or.inl (by omega)
    · rcases h2 with h2 | ⟨h2e, h2r⟩
      · exact Or.inl (by omega)
      · exact Or.inr ⟨by omega, charListLe_trans as bs cs h1r h2r⟩

instance : IsTotal String (fun a b => strLe a b = true) :=
  ⟨fun a b => charListLe_total a.data b.data⟩

instance : IsTrans String (fun a b => strLe a b = true) :=
  ⟨fun a b c => charListLe_trans a.data b.data c.data⟩

theorem pySortedSet_sorted (ws : List String) :
    (pySortedSet ws).Sorted (fun a b => strLe a b = true) :=
  List.sorted_insertionSort _ _

theorem pySortedSet_nodup (ws : List String) : (pySortedSet ws).Nodup :=
  ((List.perm_insertionSort _ _).nodup_iff).mpr (List.nodup_dedup ws)

theorem mem_pySortedSet {w : String} {ws : List String} :
    w ∈ pySortedSet ws ↔ w ∈ ws :=
  ((List.perm_insertionSort _ _).mem_iff).trans (List.mem_dedup)

/-! ## Character-list lemmas -/

theorem hasChar_iff {l : List Char} {c : Char} : hasChar l c = true ↔ c ∈ l := by
  simp only [hasChar, List.any_eq_true, decide_eq_true_eq]
  constructor
  · rintro ⟨x, hx, rfl⟩; exact hx
  · intro h; exact ⟨c, h, rfl⟩

theorem hasChar_append {l m : List Char} {c : Char} :
    hasChar (l ++ m) c = (hasChar l c || hasChar m c) := by
  simp [hasChar]

theorem splitOnChar_ne_nil (d : Char) : ∀ l : List Char, splitOnChar d l ≠ []
  | [] => by simp [splitOnChar]
  | c :: cs => by
    simp only [splitOnChar]
    split
    · simp
    · split
      · simp
      · simp

theorem mem_splitOnChar_subset (d : Char) :
    ∀ l : List Char, ∀ w ∈ splitOnChar d l, ∀ c ∈ w, c ∈ l ∧ c ≠ d
  | [], w, hw, c, hc => by
    simp only [splitOnChar, List.mem_singleton] at hw
    subst hw; simp at hc
  | c0 :: cs, w, hw, c, hc => by
    simp only [splitOnChar] at hw
    by_cases h0 : c0 = d
    · rw [if_pos h0] at hw
      rcases List.mem_cons.mp hw with rfl | hw
      · simp at hc
      · have := mem_splitOnChar_subset d cs w hw c hc
        exact ⟨List.mem_cons_of_mem _ this.1, this.2⟩
    · rw [if_neg h0] at hw
      rcases h : splitOnChar d cs with _ | ⟨w0, ws⟩
      · exact absurd h (splitOnChar_ne_nil d cs)
      · rw [h] at hw
        rcases List.mem_cons.mp hw with rfl | hw
        · rcases List.mem_cons.mp hc with rfl | hc
          · exact ⟨List.mem_cons_self _ _, h0⟩
          · have := mem_splitOnChar_subset d cs w0 (h ▸ List.mem_cons_self _ _) c hc
            exact ⟨List.mem_cons_of_mem _ this.1, this.2⟩
        · have := mem_splitOnChar_subset d cs w (h ▸ List.mem_cons_of_mem _ hw) c hc
          exact ⟨List.mem_cons_of_mem _ this.1, this.2⟩

/-- A list without the delimiter is a single fragment. -/
theorem splitOnChar_no_delim (d : Char) :
    ∀ l : List Char, hasChar l d = false → splitOnChar d l = [l]
  | [], _ => rfl
  | c :: cs, h => by
    have hc : ¬ c = d := by
      intro hcd
      simp [hasChar, hcd] at h
    have hcs : hasChar cs d = false := by
      simp only [hasChar, List.any_cons, Bool.or_eq_false_iff] at h
      exact h.2
    simp only [splitOnChar, if_neg hc, splitOnChar_no_delim d cs hcs]

/-- Prepending a non-delimiter character extends the first fragment. -/
theorem splitOnChar_cons_ne (d c : Char) (l : List Char) (hc : c ≠ d) :
    ∀ w ws, splitOnChar d l = w :: ws → splitOnChar d (c :: l) = (c :: w) :: ws := by
  intro w ws h
  simp only [splitOnChar, if_neg hc, h]

/-- Splitting a list that starts with a delimiter-free prefix followed by the
delimiter peels off that prefix as the first fragment. -/
theorem splitOnChar_append_delim (d : Char) :
    ∀ a rest : List Char, hasChar a d = false →
      splitOnChar d (a ++ d :: rest) = a :: splitOnChar d rest
  | [], rest, _ => by simp [splitOnChar]
  | c :: cs, rest, h => by
    have hc : ¬ c = d := by
      intro hcd
      simp [hasChar, hcd] at h
    have hcs : hasChar cs d = false := by
      simp only [hasChar, List.any_cons, Bool.or_eq_false_iff] at h
      exact h.2
    have ih := splitOnChar_append_delim d cs rest hcs
    have := splitOnChar_cons_ne d c (cs ++ d :: rest) hc _ _ ih
    simpa using this

/-! ## pyStrip lemmas -/

theorem pyStrip_eq_rdropWhile (l : List Char) :
    pyStrip l = List.rdropWhile isPySpace (l.dropWhile isPySpace) := rfl

theorem pyStrip_nil : pyStrip [] = [] := rfl

theorem pyStrip_idem (l : List Char) : pyStrip (pyStrip l) = pyStrip l := by
  rw [pyStrip_eq_rdropWhile, pyStrip_eq_rdropWhile]
  have hpre : List.rdropWhile isPySpace (l.dropWhile isPySpace) <+:
      l.dropWhile isPySpace := List.rdropWhile_prefix _ _
  have hself : (List.rdropWhile isPySpace (l.dropWhile isPySpace)).dropWhile isPySpace =
      List.rdropWhile isPySpace (l.dropWhile isPySpace) := by
    rw [List.dropWhile_eq_self_iff]
    intro hl
    have hlt : 0 < (l.dropWhile isPySpace).length :=
      lt_of_lt_of_le hl hpre.length_le
    have := List.dropWhile_get_zero_not isPySpace l hlt
    simpa [List.get_eq_getElem, hpre.getElem hl] using this
  rw [hself, List.rdropWhile_idempotent]

theorem pyStrip_eq_self (l : List Char) (h : ∀ c ∈ l, isPySpace c = false) :
    pyStrip l = l := by
  rw [pyStrip_eq_rdropWhile]
  have h1 : l.dropWhile isPySpace = l := by
    rw [List.dropWhile_eq_self_iff]
    intro hl
    simp only [List.get_eq_getElem]
    simp [h _ (List.getElem_mem hl)]
  rw [h1, List.rdropWhile_eq_self_iff]
  intro hl
  simp [h _ (List.getLast_mem hl)]

theorem pyStrip_cons_space (l : List Char) : pyStrip (' ' :: l) = pyStrip l := by
  simp only [pyStrip, List.dropWhile_cons]
  norm_num [isPySpace]

/-! ## split_strip lemmas -/

/-- Every string produced by `split_strip` is non-empty and already
stripped. -/
theorem split_strip_good (d : Char) (l : List Char) :
    ∀ w ∈ split_strip d l, w.data ≠ [] ∧ pyStrip w.data = w.data := by
  intro w hw
  simp only [split_strip, List.mem_map, List.mem_filter] at hw
  obtain ⟨m, ⟨hm, hne⟩, rfl⟩ := hw
  obtain ⟨frag, _, rfl⟩ := hm
  refine ⟨?_, pyStrip_idem frag⟩
  simpa using hne

/-! ## scan lemmas -/

/-- Scanning a quote-free segment outside quotes just accumulates it into
the buffer, recording any loose comma. -/
theorem scan_noquote_append (rest : List Char) :
    ∀ (l : List Char), hasChar l '"' = false →
      ∀ (buffer : List Char) (slc : Bool) (words : List String)
        (tbs : List (List Char)),
        scan (l ++ rest) false buffer slc words tbs =
          scan rest false (buffer ++ l) (slc || hasChar l ',') words tbs
  | [], _, buffer, slc, words, tbs => by simp [hasChar]
  | c :: cs, h, buffer, slc, words, tbs => by
    have hc : ¬ c = '"' := by
      intro hcd; simp [hasChar, hcd] at h
    have hcs : hasChar cs '"' = false := by
      simp only [hasChar, List.any_cons, Bool.or_eq_false_iff] at h
      exact h.2
    simp only [List.cons_append, scan, Bool.false_eq_true, if_false, if_neg hc]
    rw [List.append_eq, scan_noquote_append rest cs hcs]
    simp [hasChar, Bool.or_assoc]

/-- Scanning a quote-free segment inside a quote accumulates it into the
quoted buffer verbatim (commas included, without marking them loose). -/
theorem scan_inquote_append (rest : List Char) :
    ∀ (l : List Char), hasChar l '"' = false →
      ∀ (buffer : List Char) (slc : Bool) (words : List String)
        (tbs : List (List Char)),
        scan (l ++ rest) true buffer slc words tbs =
          scan rest true (buffer ++ l) slc words tbs
  | [], _, buffer, slc, words, tbs => by simp
  | c :: cs, h, buffer, slc, words, tbs => by
    have hc : ¬ c = '"' := by
      intro hcd; simp [hasChar, hcd] at h
    have hcs : hasChar cs '"' = false := by
      simp only [hasChar, List.any_cons, Bool.or_eq_false_iff] at h
      exact h.2
    simp only [List.cons_append, scan, if_true, if_neg hc]
    rw [List.append_eq, scan_inquote_append rest cs hcs]
    simp

/-- EOF outside a quote: flush the pending buffer (if non-empty). -/
theorem scan_eof_noquote (buffer : List Char) (slc : Bool) (words : List String)
    (tbs : List (List Char)) :
    scan [] false buffer slc words tbs =
      (words, (if buffer.isEmpty then tbs else tbs ++ [buffer]), slc) := by
  simp only [scan]
  split <;> simp

/-- EOF inside an open quote: the unterminated buffer is flushed as an
ordinary unquoted chunk, and an embedded comma forces comma splitting. -/
theorem scan_eof_inquote (buffer : List Char) (slc : Bool) (words : List String)
    (tbs : List (List Char)) :
    scan [] true buffer slc words tbs =
      (words, (if buffer.isEmpty then tbs else tbs ++ [buffer]),
        (if buffer.isEmpty then slc else slc || hasChar buffer ',')) := by
  simp only [scan]
  split <;> simp

/-- An opening quote flushes the pending unquoted buffer to `to_be_split`. -/
theorem scan_open_quote (rest buffer : List Char) (slc : Bool) (words : List String)
    (tbs : List (List Char)) :
    scan ('"' :: rest) false buffer slc words tbs =
      scan rest true [] slc words (if buffer.isEmpty then tbs else tbs ++ [buffer]) := by
  simp [scan]

/-- A closing quote turns the stripped quoted buffer into a word. -/
theorem scan_close_quote (rest buffer : List Char) (slc : Bool) (words : List String)
    (tbs : List (List Char)) :
    scan ('"' :: rest) true buffer slc words tbs =
      scan rest false [] slc
        (if (pyStrip buffer).isEmpty then words
         else words ++ [String.mk (pyStrip buffer)]) tbs := by
  simp [scan]

/-- Every word the scanner ever adds is a non-empty stripped quoted span. -/
theorem scan_words_mem :
    ∀ (l : List Char) (openQuote : Bool) (buffer : List Char) (slc : Bool)
      (words : List String) (tbs : List (List Char)),
      ∀ w ∈ (scan l openQuote buffer slc words tbs).1,
        w ∈ words ∨ (w.data ≠ [] ∧ pyStrip w.data = w.data)
  | [], openQuote, buffer, slc, words, tbs => by
    intro w hw
    simp only [scan] at hw
    split at hw
    · exact Or.inl hw
    · split at hw <;> exact Or.inl hw
  | c :: cs, openQuote, buffer, slc, words, tbs => by
    intro w hw
    simp only [scan] at hw
    by_cases ho : openQuote = true
    · rw [if_pos ho] at hw
      by_cases hc : c = '"'
      · rw [if_pos hc] at hw
        rcases scan_words_mem cs false [] slc _ tbs w hw with hmem | hgood
        · by_cases hb : (pyStrip buffer).isEmpty = true
          · rw [if_pos hb] at hmem
            exact Or.inl hmem
          · rw [if_neg hb] at hmem
            rcases List.mem_append.mp hmem with hmem | hmem
            · exact Or.inl hmem
            · right
              rcases List.mem_singleton.mp hmem with rfl
              refine ⟨?_, pyStrip_idem buffer⟩
              simpa using hb
        · exact Or.inr hgood
      · rw [if_neg hc] at hw
        exact scan_words_mem cs true (buffer ++ [c]) slc words tbs w hw
    · rw [if_neg ho] at hw
      by_cases hc : c = '"'
      · rw [if_pos hc] at hw
        exact scan_words_mem cs true [] slc words _ w hw
      · rw [if_neg hc] at hw
        exact scan_words_mem cs false (buffer ++ [c]) _ words tbs w hw

/-! ## Cloud lemmas -/

theorem foldl_max_le_init : ∀ (xs : List ℚ) (a : ℚ), a ≤ xs.foldl max a
  | [], a => le_refl a
  | x :: xs, a => le_trans (le_max_left a x) (foldl_max_le_init xs (max a x))

theorem mem_le_foldl_max : ∀ (xs : List ℚ) (a : ℚ), ∀ x ∈ xs, x ≤ xs.foldl max a
  | x' :: xs, a, x, hx => by
    rcases List.mem_cons.mp hx with rfl | hx
    · exact le_trans (le_max_right a x) (foldl_max_le_init xs (max a x))
    · exact mem_le_foldl_max xs (max a x') x hx

theorem le_listMax (l : List ℚ) : ∀ x ∈ l, x ≤ listMax l := by
  intro x hx
  rcases l with _ | ⟨y, ys⟩
  · simp at hx
  · rcases List.mem_cons.mp hx with rfl | hx
    · exact foldl_max_le_init ys x
    · exact mem_le_foldl_max ys y x hx

theorem calculateThresholds_length (mn mx : ℚ) (steps : Nat) :
    (calculateThresholds mn mx steps).length = steps := by
  unfold calculateThresholds
  rw [List.length_map, List.length_range]

theorem calculateThresholds_get (mn mx : ℚ) (steps : Nat) (j : Nat)
    (hj : j < (calculateThresholds mn mx steps).length) :
    (calculateThresholds mn mx steps).get ⟨j, hj⟩ =
      mn + ((j : ℚ) + 1) * ((mx - mn) / (steps : ℚ)) := by
  simp only [calculateThresholds, List.get_eq_getElem, List.getElem_map,
    List.getElem_range]

/-- The last threshold is exactly `max_weight` (exact arithmetic). -/
theorem calculateThresholds_last (mn mx : ℚ) (steps : Nat) (hs : steps ≠ 0)
    (hj : steps - 1 < (calculateThresholds mn mx steps).length) :
    (calculateThresholds mn mx steps).get ⟨steps - 1, hj⟩ = mx := by
  rw [calculateThresholds_get]
  have hq : (steps : ℚ) ≠ 0 := Nat.cast_ne_zero.mpr hs
  have hcast : ((steps - 1 : Nat) : ℚ) + 1 = (steps : ℚ) := by
    have : (1 : Nat) ≤ steps := Nat.one_le_iff_ne_zero.mpr hs
    push_cast [this]
    ring
  rw [hcast]
  field_simp

theorem findBucket_none_iff (w : ℚ) : ∀ l : List ℚ,
    findBucket w l = none ↔ ∀ x ∈ l, ¬ w ≤ x
  | [] => by simp [findBucket]
  | th :: rest => by
    simp only [findBucket]
    by_cases h : w ≤ th
    · simp [h]
    · rw [if_neg h]
      simp only [Option.map_eq_none', findBucket_none_iff w rest]
      constructor
      · intro hall x hx
        rcases List.mem_cons.mp hx with rfl | hx
        · exact h
        · exact hall x hx
      · intro hall x hx
        exact hall x (List.mem_cons_of_mem _ hx)

theorem findBucket_some_spec (w : ℚ) : ∀ (l : List ℚ) (f : Nat),
    findBucket w l = some f →
      ∃ j, ∃ hj : j < l.length, f = j + 1 ∧ w ≤ l.get ⟨j, hj⟩ ∧
        ∀ k, ∀ hkl : k < l.length, k < j → ¬ w ≤ l.get ⟨k, hkl⟩
  | [], f, h => by simp [findBucket] at h
  | th :: rest, f, h => by
    simp only [findBucket] at h
    by_cases hw : w ≤ th
    · rw [if_pos hw] at h
      obtain rfl : (1 : Nat) = f := Option.some_inj.mp h
      exact ⟨0, by simp, rfl, hw, fun k hkl hk => absurd hk (by omega)⟩
    · rw [if_neg hw] at h
      obtain ⟨f', hf', rfl⟩ := Option.map_eq_some'.mp h
      obtain ⟨j, hj, rfl, hle, hmin⟩ := findBucket_some_spec w rest f' hf'
      refine ⟨j + 1, by simpa using Nat.succ_lt_succ hj, rfl, by simpa using hle, ?_⟩
      intro k hkl hk
      match k with
      | 0 => simpa using hw
      | k' + 1 =>
        have hkl' : k' < rest.length := by simpa using hkl
        simpa using hmin k' hkl' (by omega)

theorem findBucket_isSome (w : ℚ) (l : List ℚ) (h : ∃ x ∈ l, w ≤ x) :
    ∃ f, findBucket w l = some f := by
  cases hfb : findBucket w l with
  | none =>
    rw [findBucket_none_iff] at hfb
    obtain ⟨x, hx, hwx⟩ := h
    exact absurd hwx (hfb x hx)
  | some f => exact ⟨f, rfl⟩

theorem cloudMap_ok (f : Tag → Except PyError Tag) :
    ∀ (ts res : List Tag), cloudMap f ts = .ok res →
      List.Forall₂ (fun t r => f t = .ok r) ts res
  | [], res, h => by
    simp only [cloudMap, Except.ok.injEq] at h
    subst h
    exact List.Forall₂.nil
  | t :: ts, res, h => by
    simp only [cloudMap] at h
    rcases hft : f t with e | t'
    · rw [hft] at h; simp at h
    · rw [hft] at h
      rcases hrest : cloudMap f ts with e | res'
      · rw [hrest] at h; simp at h
      · rw [hrest] at h
        simp only [Except.ok.injEq] at h
        subst h
        exact List.Forall₂.cons hft (cloudMap_ok f ts res' hrest)

theorem cloudMap_error_head (f : Tag → Except PyError Tag) (t : Tag) (ts : List Tag)
    (e : PyError) (h : f t = .error e) : cloudMap f (t :: ts) = .error e := by
  simp [cloudMap, h]

/-- A successful tag-weight computation never exceeds `max_weight` (as long
as the raw weight does not). -/
theorem calculateTagWeight_ok_le (lg : ℚ → ℚ) (w mx : ℚ) (d : Int) (v : ℚ)
    (hw : w ≤ mx) (h : calculateTagWeight lg w mx d = .ok v) : v ≤ mx := by
  unfold calculateTagWeight at h
  split at h
  · obtain rfl : w = v := Except.ok.inj h
    exact hw
  · split at h
    · split at h
      · simp at h
      · split at h
        · simp at h
        · obtain rfl : _ = v := Except.ok.inj h
          exact min_le_right _ _
    · simp at h

/-! ## edit_string_for_tags lemmas -/

/-- The serialized form of a single name (quoted when it contains a comma). -/
def esftName (n : List Char) : List Char :=
  if hasChar n ',' then '"' :: (n ++ ['"']) else n

theorem esft_foldl :
    ∀ (ls ns : List (List Char)) (b : Bool),
      ls.foldl esftStep (ns, b) =
        (ns ++ ls.map esftName, b || ls.any (fun n => !hasChar n ',' && hasChar n ' '))
  | [], ns, b => by simp
  | n :: ls, ns, b => by
    simp only [List.foldl_cons, List.map_cons, List.any_cons]
    by_cases h : hasChar n ',' = true
    · rw [show esftStep (ns, b) n = (ns ++ ['"' :: (n ++ ['"'])], b) from by
        simp [esftStep, h]]
      rw [esft_foldl ls _ b]
      simp [esftName, h]
    · rw [Bool.not_eq_true] at h
      rw [show esftStep (ns, b) n = (ns ++ [n], b || hasChar n ' ') from by
        simp [esftStep, h]]
      rw [esft_foldl ls _ _]
      simp [esftName, h, Bool.or_assoc]

/-- Modelled from the spec (§4.2 serialization rules, with "contains
whitespace" read as "contains a space character"): names with a comma are
quoted; the joiner is `", "` when some unquoted name contains a space,
else a single space; a singleton forced into comma-mode is quoted whole. -/
def specSerialize (tags : List String) : String :=
  let ls := tags.map String.data
  let names := ls.map esftName
  let use_commas := ls.any (fun n => !hasChar n ',' && hasChar n ' ')
  let result := joinGlue (if use_commas then [',', ' '] else [' ']) names
  String.mk (if tags.length == 1 && use_commas then '"' :: (result ++ ['"']) else result)

/-- The imperative loop of `edit_string_for_tags` computes the declarative
description `specSerialize`. -/
theorem esft_eq_spec (tags : List String) :
    edit_string_for_tags tags = specSerialize tags := by
  unfold edit_string_for_tags specSerialize
  rw [esft_foldl]
  simp

theorem joinGlue_cons_cons (glue n m : List Char) (ms : List (List Char)) :
    joinGlue glue (n :: m :: ms) = n ++ glue ++ joinGlue glue (m :: ms) := rfl

/-- Characters of a glue-join come from the glue or from the pieces. -/
theorem hasChar_joinGlue (glue : List Char) (c : Char) :
    ∀ ns : List (List Char), hasChar (joinGlue glue ns) c = true →
      hasChar glue c = true ∨ ∃ n ∈ ns, hasChar n c = true
  | [], h => by simp [joinGlue, hasChar] at h
  | [n], h => Or.inr ⟨n, List.mem_singleton_self n, h⟩
  | n :: m :: ms, h => by
    rw [joinGlue_cons_cons, hasChar_append, hasChar_append] at h
    rcases Bool.or_eq_true_iff.mp h with h' | hrest
    · rcases Bool.or_eq_true_iff.mp h' with hn | hg
      · exact Or.inr ⟨n, List.mem_cons_self _ _, hn⟩
      · exact Or.inl hg
    · rcases hasChar_joinGlue glue c (m :: ms) hrest with hg | ⟨x, hx, hxc⟩
      · exact Or.inl hg
      · exact Or.inr ⟨x, List.mem_cons_of_mem _ hx, hxc⟩

/-- A space-join of space-free pieces splits back into the pieces. -/
theorem splitOnChar_joinGlue_space :
    ∀ ns : List (List Char), ns ≠ [] → (∀ n ∈ ns, hasChar n ' ' = false) →
      splitOnChar ' ' (joinGlue [' '] ns) = ns
  | [], h, _ => absurd rfl h
  | [n], _, hn => splitOnChar_no_delim ' ' n (hn n (List.mem_singleton_self n))
  | n :: m :: ms, _, hn => by
    rw [joinGlue_cons_cons]
    have : n ++ [' '] ++ joinGlue [' '] (m :: ms) =
        n ++ ' ' :: joinGlue [' '] (m :: ms) := by simp
    rw [this, splitOnChar_append_delim ' ' n _ (hn n (List.mem_cons_self _ _)),
      splitOnChar_joinGlue_space (m :: ms) (by simp)
        (fun x hx => hn x (List.mem_cons_of_mem _ hx))]

/-- A `", "`-join of comma-free pieces splits on commas into the head plus
the other pieces each with the glue's space prepended. -/
theorem splitOnChar_joinGlue_comma :
    ∀ (n : List Char) (ns : List (List Char)),
      (∀ x ∈ n :: ns, hasChar x ',' = false) →
      splitOnChar ',' (joinGlue [',', ' '] (n :: ns)) =
        n :: ns.map (fun m => ' ' :: m)
  | n, [], h => by
    simpa [joinGlue] using splitOnChar_no_delim ',' n (h n (List.mem_singleton_self n))
  | n, m :: ms, h => by
    rw [joinGlue_cons_cons]
    have : n ++ [',', ' '] ++ joinGlue [',', ' '] (m :: ms) =
        n ++ ',' :: (' ' :: joinGlue [',', ' '] (m :: ms)) := by simp
    rw [this, splitOnChar_append_delim ',' n _ (h n (List.mem_cons_self _ _))]
    have ih := splitOnChar_joinGlue_comma m ms
      (fun x hx => h x (List.mem_cons_of_mem _ hx))
    rw [splitOnChar_cons_ne ',' ' ' _ (by decide) _ _ ih]
    simp

theorem mk_data (s : String) : String.mk s.data = s := by
  cases s
  rfl

/-- When the fragments of a split strip down to exactly the data of a list
of non-empty strings, `split_strip` returns those strings. -/
theorem split_strip_of_fragments (d : Char) (l : List Char) (ns : List String)
    (h : (splitOnChar d l).map pyStrip = ns.map String.data)
    (hne : ∀ n ∈ ns, n.data ≠ []) :
    split_strip d l = ns := by
  unfold split_strip
  rw [h]
  have hfilter : (ns.map String.data).filter (fun w => !w.isEmpty) =
      ns.map String.data := by
    rw [List.filter_eq_self]
    intro a ha
    obtain ⟨n, hn, rfl⟩ := List.mem_map.mp ha
    simpa using hne n hn
  rw [hfilter, List.map_map]
  have : (String.mk ∘ String.data) = id := by
    funext s
    exact mk_data s
  rw [this, List.map_id]

/-! ## Bridge between space-splitting and whitespace-splitting (for C3) -/

theorem wsAux_eq :
    ∀ (l buf : List Char),
      (∀ c ∈ l, isPySpace c = true → c = ' ') →
      ∀ h t, splitOnChar ' ' l = h :: t →
        pySplitWhitespaceAux l buf =
          (((buf.reverse ++ h) :: t).filter (fun w => !w.isEmpty)).map String.mk
  | [], buf, _, h, t, hsplit => by
    simp only [splitOnChar, List.cons.injEq] at hsplit
    obtain ⟨rfl, rfl⟩ := hsplit
    cases buf with
    | nil => simp [pySplitWhitespaceAux]
    | cons b bs => simp [pySplitWhitespaceAux]
  | c :: cs, buf, hws, h, t, hsplit => by
    have hws' : ∀ x ∈ cs, isPySpace x = true → x = ' ' :=
      fun x hx => hws x (List.mem_cons_of_mem _ hx)
    obtain ⟨h', t', hsplit'⟩ : ∃ h' t', splitOnChar ' ' cs = h' :: t' := by
      cases hs : splitOnChar ' ' cs with
      | nil => exact absurd hs (splitOnChar_ne_nil ' ' cs)
      | cons x y => exact ⟨x, y, rfl⟩
    by_cases hc : isPySpace c = true
    · have hceq : c = ' ' := hws c (List.mem_cons_self _ _) hc
      subst hceq
      simp only [splitOnChar, if_pos rfl, hsplit', List.cons.injEq] at hsplit
      obtain ⟨rfl, rfl⟩ := hsplit
      have ih := wsAux_eq cs [] hws' h' t' hsplit'
      cases buf with
      | nil => simpa [pySplitWhitespaceAux] using ih
      | cons b bs =>
        rw [show pySplitWhitespaceAux (' ' :: cs) (b :: bs) =
            String.mk (b :: bs).reverse :: pySplitWhitespaceAux cs [] from by
          simp [pySplitWhitespaceAux, isPySpace]]
        rw [ih]
        simp
    · have hcne : ¬ c = ' ' := by
        intro hceq
        subst hceq
        simp [isPySpace] at hc
      rw [splitOnChar_cons_ne ' ' c cs hcne h' t' hsplit', List.cons.injEq] at hsplit
      obtain ⟨rfl, rfl⟩ := hsplit
      have ih := wsAux_eq cs (c :: buf) hws' h' t' hsplit'
      rw [show pySplitWhitespaceAux (c :: cs) buf = pySplitWhitespaceAux cs (c :: buf)
        from by simp [pySplitWhitespaceAux, hc]]
      rw [ih]
      simp

/-- Fragments of a space-split contain no whitespace at all when the input's
only whitespace characters are plain spaces. -/
theorem frag_no_ws (l : List Char) (hws : ∀ c ∈ l, isPySpace c = true → c = ' ') :
    ∀ w ∈ splitOnChar ' ' l, ∀ c ∈ w, isPySpace c = false := by
  intro w hw c hc
  obtain ⟨hcl, hcne⟩ := mem_splitOnChar_subset ' ' l w hw c hc
  by_cases hsp : isPySpace c = true
  · exact absurd (hws c hcl hsp) hcne
  · simpa using hsp

/-- On inputs whose whitespace is only the space character, splitting on the
space character (with strip and empty-drop) agrees with Python's
whitespace-run `str.split()`. -/
theorem split_strip_space_eq_ws (l : List Char)
    (hws : ∀ c ∈ l, isPySpace c = true → c = ' ') :
    split_strip ' ' l = pySplitWhitespace l := by
  obtain ⟨h, t, hsplit⟩ : ∃ h t, splitOnChar ' ' l = h :: t := by
    cases hs : splitOnChar ' ' l with
    | nil => exact absurd hs (splitOnChar_ne_nil ' ' l)
    | cons x y => exact ⟨x, y, rfl⟩
  unfold split_strip pySplitWhitespace
  rw [wsAux_eq l [] hws h t hsplit, hsplit]
  have hid : (h :: t).map pyStrip = h :: t := by
    have hall : ∀ w ∈ h :: t, pyStrip w = id w := fun w hw =>
      pyStrip_eq_self w (frag_no_ws l hws w (hsplit ▸ hw))
    rw [List.map_congr_left hall, List.map_id]
  rw [hid]
  simp

/-! ## Claims -/

/-- C8: for every input string, the list returned by `parse_tag_input` is
lexicographically sorted (code-point order), contains no duplicates, and
every element is a non-empty tag name with no leading or trailing
whitespace. -/
theorem C8_parse_sorted_unique_trimmed (s : String) :
    (parse_tag_input s).Sorted (fun a b => strLe a b = true) ∧
    (parse_tag_input s).Nodup ∧
    ∀ w ∈ parse_tag_input s, w.data ≠ [] ∧ pyStrip w.data = w.data := by
  unfold parse_tag_input
  dsimp only
  split
  · exact ⟨List.sorted_nil, List.nodup_nil, by simp⟩
  · split
    · refine ⟨pySortedSet_sorted _, pySortedSet_nodup _, ?_⟩
      intro w hw
      exact split_strip_good _ _ w (mem_pySortedSet.mp hw)
    · refine ⟨pySortedSet_sorted _, pySortedSet_nodup _, ?_⟩
      intro w hw
      rcases List.mem_append.mp (mem_pySortedSet.mp hw) with hw | hw
      · rcases scan_words_mem _ _ _ _ _ _ w hw with hmem | hgood
        · simp at hmem
        · exact hgood
      · obtain ⟨ws, hws, hwws⟩ := List.mem_flatten.mp hw
        obtain ⟨chunk, _, rfl⟩ := List.mem_map.mp hws
        exact split_strip_good _ _ w hwws

/-- C9: `parse_tag_input` has no error paths: it is a total function,
returning a value on every input (the embedding is a plain function, with
the `StopIteration` handler of the source made explicit in `scan`), and
empty input yields the empty list. -/
theorem C9_parse_never_fails :
    (∀ s : String, ∃ out : List String, parse_tag_input s = out) ∧
    parse_tag_input "" = [] :=
  ⟨fun s => ⟨parse_tag_input s, rfl⟩, rfl⟩

/-- The loop body of `calculate_cloud`, as passed to `cloudMap`. -/
def cloudBody (lg : ℚ → ℚ) (mx : ℚ) (thresholds : List ℚ) (d : Int) (tag : Tag) :
    Except PyError Tag :=
  match calculateTagWeight lg tag.count mx d with
  | .error e => .error e
  | .ok w => .ok (applyFont thresholds w tag)

theorem calculate_cloud_cons (lg : ℚ → ℚ) (t : Tag) (ts : List Tag) (steps : Nat)
    (d : Int) (hs : steps ≠ 0) :
    calculate_cloud lg (t :: ts) steps d =
      cloudMap
        (cloudBody lg (listMax ((t :: ts).map Tag.count))
          (calculateThresholds (listMin ((t :: ts).map Tag.count))
            (listMax ((t :: ts).map Tag.count)) steps) d)
        (t :: ts) := by
  unfold calculate_cloud
  dsimp only
  rw [if_neg hs]
  rfl

theorem cloudBody_ok_count (lg : ℚ → ℚ) (mx : ℚ) (thresholds : List ℚ) (d : Int)
    (t r : Tag) (h : cloudBody lg mx thresholds d t = .ok r) : r.count = t.count := by
  unfold cloudBody at h
  rcases hw : calculateTagWeight lg t.count mx d with e | w
  · rw [hw] at h; simp at h
  · rw [hw] at h
    simp only [Except.ok.injEq] at h
    subst h
    unfold applyFont
    cases findBucket w thresholds <;> rfl

/-- When some tag has a non-positive count, the maximum count differs from 1
and every count is bounded by it, the logarithmic weight loop raises the
domain error. -/
theorem cloudMap_log_domain (lg : ℚ → ℚ) (mx : ℚ) (thresholds : List ℚ)
    (hmax : mx ≠ 1) :
    ∀ ts : List Tag, (∃ t ∈ ts, t.count ≤ 0) → (∀ t ∈ ts, t.count ≤ mx) →
      cloudMap (cloudBody lg mx thresholds LOGARITHMIC) ts = .error .domainError
  | [], hbad, _ => by simp at hbad
  | t :: ts, hbad, hle => by
    have hfirst : (LOGARITHMIC = LINEAR ∨ mx = 1) = False := by
      simp only [eq_iff_iff, iff_false]
      rintro (h | h)
      · exact absurd h (by norm_num [LOGARITHMIC, LINEAR])
      · exact hmax h
    by_cases ht : t.count ≤ 0
    · apply cloudMap_error_head
      unfold cloudBody calculateTagWeight
      rw [if_neg (hfirst ▸ id), if_pos rfl, if_pos ht]
    · obtain ⟨tb, htb, htb0⟩ := hbad
      have htb' : tb ∈ ts := by
        rcases List.mem_cons.mp htb with rfl | h'
        · exact absurd htb0 ht
        · exact h'
      have hmx0 : ¬ mx ≤ 0 := by
        have h1 : t.count ≤ mx := hle t (List.mem_cons_self _ _)
        intro h2
        exact ht (le_trans h1 h2)
      have hok : calculateTagWeight lg t.count mx LOGARITHMIC =
          .ok (min (lg t.count * mx / lg mx) mx) := by
        unfold calculateTagWeight
        rw [if_neg (hfirst ▸ id), if_pos rfl, if_neg ht, if_neg hmx0]
      have hrest := cloudMap_log_domain lg mx thresholds hmax ts ⟨tb, htb', htb0⟩
        (fun x hx => hle x (List.mem_cons_of_mem _ hx))
      simp only [cloudMap, cloudBody, hok, hrest]

/-- C2 counterexample: on a non-empty collection whose counts are all 1, the
`max_weight == 1` short-circuit returns the raw weight before the
distribution value is inspected, so an unrecognized distribution (here 5)
does not raise. -/
theorem C2_counterexample :
    calculate_cloud (fun _ => 0) [⟨1, none⟩] 4 5 = .ok [⟨1, some 1⟩] := by
  norm_num [calculate_cloud, cloudMap, calculateTagWeight, calculateThresholds,
    listMin, listMax, applyFont, findBucket, LINEAR, LOGARITHMIC, List.range_succ]

/-- C2 (amended): for every non-empty tag collection whose maximum count is
not 1, calling `calculate_cloud` with positive steps and a distribution
value that is neither LOGARITHMIC nor LINEAR fails with the invalid-argument
error naming the offending distribution value. -/
theorem C2_invalid_distribution (lg : ℚ → ℚ) (tags : List Tag) (steps : Nat)
    (d : Int) (hne : tags ≠ []) (hs : steps ≠ 0)
    (hmax : listMax (tags.map Tag.count) ≠ 1)
    (hd1 : d ≠ LOGARITHMIC) (hd2 : d ≠ LINEAR) :
    calculate_cloud lg tags steps d = .error (.invalidDistribution d) := by
  rcases tags with _ | ⟨t, ts⟩
  · exact absurd rfl hne
  · rw [calculate_cloud_cons lg t ts steps d hs]
    apply cloudMap_error_head
    unfold cloudBody calculateTagWeight
    rw [if_neg (by
        rintro (h | h)
        · exact hd2 h
        · exact hmax h), if_neg hd1]

theorem C2_invalid_distribution_witness :
    ([⟨2, none⟩] : List Tag) ≠ [] ∧ (4 : Nat) ≠ 0 ∧
    listMax (([⟨2, none⟩] : List Tag).map Tag.count) ≠ 1 ∧
    (5 : Int) ≠ LOGARITHMIC ∧ (5 : Int) ≠ LINEAR ∧
    calculate_cloud (fun _ => 0) [⟨2, none⟩] 4 5 = .error (.invalidDistribution 5) :=
  ⟨by simp, by norm_num, by norm_num [listMax], by norm_num [LOGARITHMIC],
    by norm_num [LINEAR],
    C2_invalid_distribution (fun _ => 0) [⟨2, none⟩] 4 5 (by simp) (by norm_num)
      (by norm_num [listMax]) (by norm_num [LOGARITHMIC]) (by norm_num [LINEAR])⟩

/-- C4 counterexample: a collection containing the non-positive count 0 whose
maximum count is 1 takes the `max_weight == 1` short-circuit, so the
logarithmic distribution succeeds instead of raising a domain error. -/
theorem C4_counterexample :
    calculate_cloud (fun _ => 0) [⟨0, none⟩, ⟨1, none⟩] 4 LOGARITHMIC =
      .ok [⟨0, some 1⟩, ⟨1, some 4⟩] := by
  norm_num [calculate_cloud, cloudMap, calculateTagWeight, calculateThresholds,
    listMin, listMax, applyFont, findBucket, LINEAR, LOGARITHMIC, List.range_succ]

/-- C4 (amended): whenever `calculate_cloud` is invoked with the LOGARITHMIC
distribution and positive steps on a collection that contains a tag with
`count <= 0` and whose maximum count is not 1, it fails with the domain
error (logarithm of a non-positive number). -/
theorem C4_log_domain_error (lg : ℚ → ℚ) (tags : List Tag) (steps : Nat)
    (hs : steps ≠ 0) (hmax : listMax (tags.map Tag.count) ≠ 1)
    (hbad : ∃ t ∈ tags, t.count ≤ 0) :
    calculate_cloud lg tags steps LOGARITHMIC = .error .domainError := by
  rcases tags with _ | ⟨t, ts⟩
  · simp at hbad
  · rw [calculate_cloud_cons lg t ts steps LOGARITHMIC hs]
    apply cloudMap_log_domain lg _ _ hmax (t :: ts) hbad
    intro x hx
    exact le_listMax _ x.count (List.mem_map_of_mem Tag.count hx)

theorem C4_log_domain_error_witness :
    (4 : Nat) ≠ 0 ∧
    listMax (([⟨0, none⟩, ⟨2, none⟩] : List Tag).map Tag.count) ≠ 1 ∧
    (∃ t ∈ ([⟨0, none⟩, ⟨2, none⟩] : List Tag), t.count ≤ 0) ∧
    calculate_cloud (fun _ => 0) [⟨0, none⟩, ⟨2, none⟩] 4 LOGARITHMIC =
      .error .domainError :=
  ⟨by norm_num, by norm_num [listMax], ⟨⟨0, none⟩, by norm_num⟩,
    C4_log_domain_error (fun _ => 0) [⟨0, none⟩, ⟨2, none⟩] 4 (by norm_num)
      (by norm_num [listMax]) ⟨⟨0, none⟩, by norm_num⟩⟩

/-- C10: an empty collection is returned unchanged without error
(`.ok []`, unconditionally), and on success `calculate_cloud` returns a
collection of the same length and order, with every tag's count unchanged
(only `font_size` can differ, `Tag` having no other field). -/
theorem C10_frame (lg : ℚ → ℚ) (tags : List Tag) (steps : Nat) (d : Int) :
    calculate_cloud lg ([] : List Tag) steps d = .ok [] ∧
    ∀ res : List Tag, calculate_cloud lg tags steps d = .ok res →
      res.length = tags.length ∧ res.map Tag.count = tags.map Tag.count ∧
      (tags = [] → res = []) := by
  refine ⟨rfl, ?_⟩
  intro res h
  rcases tags with _ | ⟨t, ts⟩
  · have : res = [] := by
      simpa [calculate_cloud] using h
    subst this
    exact ⟨rfl, rfl, fun _ => rfl⟩
  · by_cases hs : steps = 0
    · rw [show calculate_cloud lg (t :: ts) steps d = .error .zeroDivision from by
        unfold calculate_cloud
        dsimp only
        rw [if_pos hs]] at h
      simp at h
    · rw [calculate_cloud_cons lg t ts steps d hs] at h
      have hf := cloudMap_ok _ _ _ h
      have hlen : res.length = (t :: ts).length := hf.length_eq.symm
      refine ⟨hlen, ?_, by simp⟩
      apply List.ext_getElem (by simpa using hlen)
      intro i h1 h2
      have h1' : i < (t :: ts).length := by simpa using h2
      have h2' : i < res.length := by simpa using h1
      have := hf.get h1' h2'
      simp only [List.getElem_map, List.get_eq_getElem] at this ⊢
      exact cloudBody_ok_count _ _ _ _ _ _ this

/-- The claim's threshold formula:
`threshold[j] = min_weight + (j+1) * (max_weight - min_weight) / steps`. -/
def thresholdAt (mn mx : ℚ) (steps : Nat) (j : Nat) : ℚ :=
  mn + ((j : ℚ) + 1) * ((mx - mn) / (steps : ℚ))

theorem calculateThresholds_get_at (mn mx : ℚ) (steps : Nat) (j : Nat)
    (hj : j < (calculateThresholds mn mx steps).length) :
    (calculateThresholds mn mx steps).get ⟨j, hj⟩ = thresholdAt mn mx steps j :=
  calculateThresholds_get mn mx steps j hj

/-- C7: whenever `calculate_cloud` succeeds with positive steps on a
non-empty collection, every returned tag carries `font_size = j + 1` in
`[1, steps]` for the smallest 0-indexed `j` such that its transformed weight
is at most `threshold[j] = min_weight + (j+1) * (max_weight - min_weight) /
steps` over the collection's minimum and maximum counts. -/
theorem C7_font_size_buckets (lg : ℚ → ℚ) (tags : List Tag) (steps : Nat)
    (d : Int) (res : List Tag) (hs : 0 < steps)
    (h : calculate_cloud lg tags steps d = .ok res) :
    ∀ i (hi : i < tags.length) (hi' : i < res.length),
      ∃ w, calculateTagWeight lg ((tags.get ⟨i, hi⟩).count)
          (listMax (tags.map Tag.count)) d = .ok w ∧
        ∃ j, (res.get ⟨i, hi'⟩).font_size = some (j + 1) ∧
          1 ≤ j + 1 ∧ j + 1 ≤ steps ∧
          w ≤ thresholdAt (listMin (tags.map Tag.count))
            (listMax (tags.map Tag.count)) steps j ∧
          ∀ k, k < j → ¬ w ≤ thresholdAt (listMin (tags.map Tag.count))
            (listMax (tags.map Tag.count)) steps k := by
  rcases tags with _ | ⟨t, ts⟩
  · intro i hi
    simp at hi
  · have hs' : steps ≠ 0 := Nat.pos_iff_ne_zero.mp hs
    rw [calculate_cloud_cons lg t ts steps d hs'] at h
    have hf := cloudMap_ok _ _ _ h
    intro i hi hi'
    have hb := hf.get hi hi'
    set mn := listMin ((t :: ts).map Tag.count) with hmn
    set mx := listMax ((t :: ts).map Tag.count) with hmx
    set th := calculateThresholds mn mx steps with hth
    unfold cloudBody at hb
    rcases hw : calculateTagWeight lg (((t :: ts).get ⟨i, hi⟩).count) mx d with e | w
    · rw [hw] at hb
      simp at hb
    · rw [hw] at hb
      simp only [Except.ok.injEq] at hb
      refine ⟨w, rfl, ?_⟩
      have hcle : ((t :: ts).get ⟨i, hi⟩).count ≤ mx :=
        le_listMax _ _ (List.mem_map_of_mem Tag.count (List.get_mem _ _ hi))
      have hwle : w ≤ mx := calculateTagWeight_ok_le lg _ mx d w hcle hw
      have hlen : th.length = steps := calculateThresholds_length mn mx steps
      have hlast : steps - 1 < th.length := by omega
      have hmem : ∃ x ∈ th, w ≤ x := by
        refine ⟨th.get ⟨steps - 1, hlast⟩, List.get_mem th _ hlast, ?_⟩
        rw [calculateThresholds_last mn mx steps hs' hlast]
        exact hwle
      obtain ⟨f, hfb⟩ := findBucket_isSome w th hmem
      obtain ⟨j, hj, rfl, hle, hmin⟩ := findBucket_some_spec w th f hfb
      refine ⟨j, ?_, by omega, by omega, ?_, ?_⟩
      · rw [← hb]
        unfold applyFont
        rw [hfb]
      · rw [calculateThresholds_get_at mn mx steps j hj] at hle
        exact hle
      · intro k hk
        have hkl : k < th.length := by omega
        have := hmin k hkl hk
        rwa [calculateThresholds_get_at mn mx steps k hkl] at this

/-- C6 counterexample: `"a\tb"` contains whitespace (a tab) but no space
character, yet the code joins with a single space, not `", "` as the claim
("any unquoted name contains whitespace") demands. -/
theorem C6_counterexample :
    edit_string_for_tags ["a\tb", "c"] = "a\tb c" ∧
    ("a\tb c" : String) ≠ "a\tb, c" := by
  constructor
  · decide
  · decide

/-- C6 (amended): `edit_string_for_tags` wraps each name containing a comma
in double quotes; it joins all names with `", "` if any unquoted name
contains a space character (not arbitrary whitespace) and with a single
space otherwise; and if there is exactly one name overall and comma-mode was
forced, the entire result is wrapped in double quotes — i.e. it computes
`specSerialize`. -/
theorem C6_serializer_shape (tags : List String) :
    edit_string_for_tags tags = specSerialize tags :=
  esft_eq_spec tags

theorem split_strip_nil (d : Char) : split_strip d [] = [] := rfl

theorem isEmpty_eq_false_iff {l : List Char} : l.isEmpty = false ↔ l ≠ [] := by
  cases l <;> simp

/-- C1: for an input in which a double quote is opened and never closed, the
unterminated buffer is treated as ordinary unquoted text; if it (or the
other unquoted chunk) contains a comma, comma-delimited splitting is used
for all unquoted chunks, else space splitting; in particular
`parse('"a,b') == ["a", "b"]`. -/
theorem C1_unterminated_quote (pre q : List Char)
    (hpre : hasChar pre '"' = false) (hq : hasChar q '"' = false) :
    (parse_tag_input (String.mk (pre ++ '"' :: q)) =
      pySortedSet
        (split_strip (if hasChar pre ',' || hasChar q ',' then ',' else ' ') pre ++
         split_strip (if hasChar pre ',' || hasChar q ',' then ',' else ' ') q)) ∧
    parse_tag_input "\"a,b" = ["a", "b"] := by
  refine ⟨?_, by decide⟩
  unfold parse_tag_input
  dsimp only
  have hne : (pre ++ '"' :: q).isEmpty = false := by
    cases pre <;> simp
  rw [if_neg (by simp [hne])]
  have hquote : hasChar (pre ++ '"' :: q) '"' = true := by
    rw [hasChar_append]
    simp [hasChar]
  rw [if_neg (by simp [hquote])]
  rw [scan_noquote_append ('"' :: q) pre hpre [] false [] []]
  simp only [List.nil_append, Bool.false_or]
  rw [scan_open_quote q pre (hasChar pre ',') [] []]
  rw [show q = q ++ [] from (List.append_nil q).symm,
    scan_inquote_append [] q hq [] (hasChar pre ',') [] _]
  rw [List.append_nil, List.nil_append]
  rw [scan_eof_inquote]
  by_cases hqnil : q = []
  · subst hqnil
    by_cases hpnil : pre = []
    · subst hpnil
      simp [split_strip_nil, hasChar]
    · have hpe : pre.isEmpty = false := by
        cases pre
        · exact absurd rfl hpnil
        · rfl
      simp [split_strip_nil, hasChar, hpe]
  · have hqe : q.isEmpty = false := by
      cases q
      · exact absurd rfl hqnil
      · rfl
    by_cases hpnil : pre = []
    · subst hpnil
      simp [split_strip_nil, hasChar, hqe]
    · have hpe : pre.isEmpty = false := by
        cases pre
        · exact absurd rfl hpnil
        · rfl
      simp [hpe, hqe]

theorem C1_unterminated_quote_witness :
    hasChar [] '"' = false ∧ hasChar ['a', ',', 'b'] '"' = false ∧
    ((parse_tag_input (String.mk ([] ++ '"' :: ['a', ',', 'b'])) =
      pySortedSet
        (split_strip (if hasChar [] ',' || hasChar ['a', ',', 'b'] ','
            then ',' else ' ') [] ++
         split_strip (if hasChar [] ',' || hasChar ['a', ',', 'b'] ','
            then ',' else ' ') ['a', ',', 'b'])) ∧
     parse_tag_input "\"a,b" = ["a", "b"]) :=
  ⟨by decide, by decide,
    C1_unterminated_quote [] ['a', ',', 'b'] (by decide) (by decide)⟩

/-- C3 counterexample: `"a\tb"` contains neither comma nor quote, but the
parser splits on the space character only and keeps `"a\tb"` whole, while
`sorted(set(s.split()))` (whitespace split) yields `["a", "b"]`. -/
theorem C3_counterexample :
    hasChar ("a\tb" : String).data ',' = false ∧
    hasChar ("a\tb" : String).data '"' = false ∧
    parse_tag_input "a\tb" ≠ pySortedSet (pySplitWhitespace ("a\tb" : String).data) := by
  refine ⟨by decide, by decide, by decide⟩

/-- C3 (amended): for every non-empty string that contains neither a comma
nor a double quote and whose whitespace characters are all plain spaces,
`parse_tag_input s` equals the sorted set of the non-empty
whitespace-split tokens of `s`. -/
theorem C3_space_split (s : String) (hne : s.data ≠ [])
    (hc : hasChar s.data ',' = false) (hq : hasChar s.data '"' = false)
    (hws : ∀ c ∈ s.data, isPySpace c = true → c = ' ') :
    parse_tag_input s = pySortedSet (pySplitWhitespace s.data) := by
  unfold parse_tag_input
  dsimp only
  have hie : s.data.isEmpty = false := by
    cases hd : s.data
    · exact absurd hd hne
    · rfl
  rw [if_neg (by simp [hie]), if_pos (by simp [hc, hq]),
    split_strip_space_eq_ws s.data hws]

theorem C3_space_split_witness :
    ("b a" : String).data ≠ [] ∧
    hasChar ("b a" : String).data ',' = false ∧
    hasChar ("b a" : String).data '"' = false ∧
    (∀ c ∈ ("b a" : String).data, isPySpace c = true → c = ' ') ∧
    parse_tag_input "b a" = pySortedSet (pySplitWhitespace ("b a" : String).data) :=
  ⟨by decide, by decide, by decide, by decide,
    C3_space_split "b a" (by decide) (by decide) (by decide) (by decide)⟩

/-- A full scan of a quote-free non-empty input: one chunk, loose comma flag
set from the input. -/
theorem scan_noquote_eof_full (l : List Char) (hl : hasChar l '"' = false)
    (hne : l.isEmpty = false) :
    scan l false [] false [] [] = ([], [l], hasChar l ',') := by
  have hstep := scan_noquote_append [] l hl [] false [] []
  rw [List.append_nil] at hstep
  rw [hstep, scan_eof_noquote]
  simp [hne]

theorem joinGlue_cons_shape (glue x : List Char) :
    ∀ xs : List (List Char), ∃ t, joinGlue glue (x :: xs) = x ++ t
  | [] => ⟨[], by simp [joinGlue]⟩
  | y :: ys => ⟨glue ++ joinGlue glue (y :: ys), by rw [joinGlue_cons_cons, List.append_assoc]⟩

theorem hasChar_joinGlue_false (glue : List Char) (c : Char)
    (hg : hasChar glue c = false) (ns : List (List Char))
    (hns : ∀ n ∈ ns, hasChar n c = false) :
    hasChar (joinGlue glue ns) c = false := by
  cases hj : hasChar (joinGlue glue ns) c
  · rfl
  · rcases hasChar_joinGlue glue c ns hj with hgc | ⟨n, hn, hnc⟩
    · rw [hg] at hgc
      exact absurd hgc (by simp)
    · rw [hns n hn] at hnc
      exact absurd hnc (by simp)

/-- C5 counterexample: the name `a"b` contains no comma and no whitespace,
yet serializing and re-parsing it splits at the quote, so the round trip
fails as stated. -/
theorem C5_counterexample :
    parse_tag_input (edit_string_for_tags ["a\"b"]) ≠ pySortedSet ["a\"b"] := by
  decide

/-- C5 (amended): round trip for every collection of tag names that are
non-empty, contain no comma and no double quote, and carry no leading or
trailing whitespace: parsing the string produced by `edit_string_for_tags`
yields exactly the lexicographically sorted deduplicated set of names. -/
theorem C5_round_trip (N : List String)
    (h : ∀ n ∈ N, n.data ≠ [] ∧ hasChar n.data ',' = false ∧
      hasChar n.data '"' = false ∧ pyStrip n.data = n.data) :
    parse_tag_input (edit_string_for_tags N) = pySortedSet N := by
  rw [esft_eq_spec]
  unfold specSerialize
  dsimp only
  have hnames : (N.map String.data).map esftName = N.map String.data := by
    rw [List.map_map]
    apply List.map_congr_left
    intro n hn
    show esftName n.data = n.data
    unfold esftName
    rw [if_neg (by simp [(h n hn).2.1])]
  rw [hnames]
  cases hu : (N.map String.data).any (fun n => !hasChar n ',' && hasChar n ' ') with
  | false =>
    rw [if_neg (show ¬((false : Bool) = true) from by simp)]
    rw [if_neg (show ¬((N.length == 1 && false) = true) from by simp)]
    have hnospace : ∀ n ∈ N, hasChar n.data ' ' = false := by
      intro n hn
      have hx := List.any_eq_false.mp hu n.data (List.mem_map_of_mem String.data hn)
      rw [(h n hn).2.1] at hx
      simpa using hx
    rcases N with _ | ⟨n, ns⟩
    · decide
    · have hJne : joinGlue [' '] ((n :: ns).map String.data) ≠ [] := by
        obtain ⟨t, ht⟩ := joinGlue_cons_shape [' '] n.data (ns.map String.data)
        rw [show (n :: ns).map String.data = n.data :: ns.map String.data from rfl, ht]
        intro habs
        exact (h n (List.mem_cons_self _ _)).1 (List.append_eq_nil.mp habs).1
      have hcomma : hasChar (joinGlue [' '] ((n :: ns).map String.data)) ',' = false := by
        apply hasChar_joinGlue_false _ _ (by decide)
        intro x hx
        obtain ⟨p, hp, rfl⟩ := List.mem_map.mp hx
        exact (h p hp).2.1
      have hquote : hasChar (joinGlue [' '] ((n :: ns).map String.data)) '"' = false := by
        apply hasChar_joinGlue_false _ _ (by decide)
        intro x hx
        obtain ⟨p, hp, rfl⟩ := List.mem_map.mp hx
        exact (h p hp).2.2.1
      have hie : (joinGlue [' '] ((n :: ns).map String.data)).isEmpty = false := by
        cases hd : joinGlue [' '] ((n :: ns).map String.data)
        · exact absurd hd hJne
        · rfl
      unfold parse_tag_input
      dsimp only
      rw [if_neg (by rw [hie]; simp), if_pos (by rw [hcomma, hquote]; rfl)]
      congr 1
      apply split_strip_of_fragments
      · rw [splitOnChar_joinGlue_space _ (by simp) (by
          intro x hx
          obtain ⟨p, hp, rfl⟩ := List.mem_map.mp hx
          exact hnospace p hp)]
        rw [List.map_map]
        apply List.map_congr_left
        intro p hp
        show pyStrip p.data = p.data
        exact (h p hp).2.2.2
      · intro p hp
        exact (h p hp).1
  | true =>
    rw [if_pos (show ((true : Bool) = true) from rfl)]
    rcases N with _ | ⟨n, ns⟩
    · simp at hu
    · rcases ns with _ | ⟨m, ms⟩
      · -- exactly one name, comma-mode forced: the whole result is quoted
        rw [if_pos (show (([n] : List String).length == 1 && true) = true from by simp)]
        have hnd := h n (List.mem_cons_self _ _)
        have hnie : n.data.isEmpty = false := by
          cases hd : n.data
          · exact absurd hd hnd.1
          · rfl
        unfold parse_tag_input
        dsimp only
        rw [show joinGlue [',', ' '] (List.map String.data [n]) = n.data from rfl]
        have hq : hasChar ('"' :: (n.data ++ ['"'])) '"' = true := by
          simp [hasChar]
        rw [if_neg (by simp), if_neg (by rw [hq]; simp)]
        rw [scan_open_quote (n.data ++ ['"']) [] false [] []]
        rw [show (if ([] : List Char).isEmpty = true then ([] : List (List Char))
          else [] ++ [[]]) = ([] : List (List Char)) from rfl]
        rw [scan_inquote_append ['"'] n.data hnd.2.2.1, List.nil_append]
        rw [scan_close_quote [] n.data false [] []]
        rw [hnd.2.2.2, if_neg (by rw [hnie]; simp), List.nil_append]
        rw [scan_eof_noquote]
        dsimp only
        simp [mk_data]
      · -- at least two names: comma joiner throughout
        rw [if_neg (show ¬(((n :: m :: ms : List String).length == 1 && true) = true)
          from by simp)]
        have hcommaJ : hasChar (joinGlue [',', ' '] ((n :: m :: ms).map String.data))
            ',' = true := by
          rw [show (n :: m :: ms).map String.data =
            n.data :: m.data :: ms.map String.data from rfl]
          rw [joinGlue_cons_cons, hasChar_append, hasChar_append]
          simp [hasChar]
        have hquoteJ : hasChar (joinGlue [',', ' '] ((n :: m :: ms).map String.data))
            '"' = false := by
          apply hasChar_joinGlue_false _ _ (by decide)
          intro x hx
          obtain ⟨p, hp, rfl⟩ := List.mem_map.mp hx
          exact (h p hp).2.2.1
        have hJne : joinGlue [',', ' '] ((n :: m :: ms).map String.data) ≠ [] := by
          obtain ⟨t, ht⟩ := joinGlue_cons_shape [',', ' '] n.data ((m :: ms).map String.data)
          rw [show (n :: m :: ms).map String.data =
            n.data :: (m :: ms).map String.data from rfl, ht]
          intro habs
          exact (h n (List.mem_cons_self _ _)).1 (List.append_eq_nil.mp habs).1
        have hie : (joinGlue [',', ' '] ((n :: m :: ms).map String.data)).isEmpty = false := by
          cases hd : joinGlue [',', ' '] ((n :: m :: ms).map String.data)
          · exact absurd hd hJne
          · rfl
        unfold parse_tag_input
        dsimp only
        rw [if_neg (by rw [hie]; simp), if_neg (by rw [hcommaJ]; simp)]
        rw [scan_noquote_eof_full _ hquoteJ hie]
        rw [hcommaJ]
        dsimp only
        rw [if_pos (show ((true : Bool) = true) from rfl)]
        rw [show ([] : List String) ++ (List.map (split_strip ',') [joinGlue [',', ' ']
          ((n :: m :: ms).map String.data)]).flatten =
          split_strip ',' (joinGlue [',', ' '] ((n :: m :: ms).map String.data)) from by simp]
        congr 1
        apply split_strip_of_fragments
        · rw [show List.map String.data (n :: m :: ms) =
            n.data :: (m :: ms).map String.data from rfl]
          rw [splitOnChar_joinGlue_comma n.data ((m :: ms).map String.data)
            (by
              intro x hx
              rcases List.mem_cons.mp hx with rfl | hx'
              · exact (h n (List.mem_cons_self _ _)).2.1
              · obtain ⟨p, hp, rfl⟩ := List.mem_map.mp hx'
                exact (h p (List.mem_cons_of_mem _ hp)).2.1)]
          have htail : (((m :: ms).map String.data).map (fun y => ' ' :: y)).map pyStrip =
              (m :: ms).map String.data := by
            rw [List.map_map, List.map_map]
            apply List.map_congr_left
            intro p hp
            show pyStrip (' ' :: p.data) = p.data
            rw [pyStrip_cons_space]
            exact (h p (List.mem_cons_of_mem _ hp)).2.2.2
          rw [List.map_cons, (h n (List.mem_cons_self _ _)).2.2.2, htail]
        · intro p hp
          exact (h p hp).1


theorem C5_round_trip_witness :
    (∀ n ∈ (["c", "a b"] : List String), n.data ≠ [] ∧ hasChar n.data ',' = false ∧
      hasChar n.data '"' = false ∧ pyStrip n.data = n.data) ∧
    parse_tag_input (edit_string_for_tags ["c", "a b"]) = pySortedSet ["c", "a b"] :=
  ⟨by decide, C5_round_trip ["c", "a b"] (by decide)⟩

theorem C10_frame_witness :
    calculate_cloud (fun _ => 0) ([] : List Tag) 4 LINEAR = .ok [] ∧
    calculate_cloud (fun _ => 0) [⟨1, none⟩, ⟨2, none⟩] 4 LINEAR =
      .ok [⟨1, some 1⟩, ⟨2, some 4⟩] ∧
    (([⟨1, some 1⟩, ⟨2, some 4⟩] : List Tag).length =
      ([⟨1, none⟩, ⟨2, none⟩] : List Tag).length ∧
     ([⟨1, some 1⟩, ⟨2, some 4⟩] : List Tag).map Tag.count =
      ([⟨1, none⟩, ⟨2, none⟩] : List Tag).map Tag.count ∧
     (([⟨1, none⟩, ⟨2, none⟩] : List Tag) = [] →
      ([⟨1, some 1⟩, ⟨2, some 4⟩] : List Tag) = [])) :=
  ⟨(C10_frame (fun _ => 0) ([] : List Tag) 4 LINEAR).1,
   by norm_num [calculate_cloud, cloudMap, calculateTagWeight, calculateThresholds,
      listMin, listMax, applyFont, findBucket, LINEAR, LOGARITHMIC, List.range_succ],
   (C10_frame (fun _ => 0) [⟨1, none⟩, ⟨2, none⟩] 4 LINEAR).2 [⟨1, some 1⟩, ⟨2, some 4⟩]
     (by norm_num [calculate_cloud, cloudMap, calculateTagWeight, calculateThresholds,
       listMin, listMax, applyFont, findBucket, LINEAR, LOGARITHMIC, List.range_succ])⟩

theorem C7_font_size_buckets_witness :
    (0 : Nat) < 4 ∧
    calculate_cloud (fun _ => 0) [⟨1, none⟩, ⟨2, none⟩] 4 LINEAR =
      .ok [⟨1, some 1⟩, ⟨2, some 4⟩] ∧
    ∀ i (hi : i < ([⟨1, none⟩, ⟨2, none⟩] : List Tag).length)
      (hi' : i < ([⟨1, some 1⟩, ⟨2, some 4⟩] : List Tag).length),
      ∃ w, calculateTagWeight (fun _ => 0)
          ((([⟨1, none⟩, ⟨2, none⟩] : List Tag).get ⟨i, hi⟩).count)
          (listMax (([⟨1, none⟩, ⟨2, none⟩] : List Tag).map Tag.count)) LINEAR = .ok w ∧
        ∃ j, (([⟨1, some 1⟩, ⟨2, some 4⟩] : List Tag).get ⟨i, hi'⟩).font_size =
            some (j + 1) ∧
          1 ≤ j + 1 ∧ j + 1 ≤ 4 ∧
          w ≤ thresholdAt (listMin (([⟨1, none⟩, ⟨2, none⟩] : List Tag).map Tag.count))
            (listMax (([⟨1, none⟩, ⟨2, none⟩] : List Tag).map Tag.count)) 4 j ∧
          ∀ k, k < j →
            ¬ w ≤ thresholdAt (listMin (([⟨1, none⟩, ⟨2, none⟩] : List Tag).map Tag.count))
              (listMax (([⟨1, none⟩, ⟨2, none⟩] : List Tag).map Tag.count)) 4 k :=
  ⟨by norm_num,
   by norm_num [calculate_cloud, cloudMap, calculateTagWeight, calculateThresholds,
     listMin, listMax, applyFont, findBucket, LINEAR, LOGARITHMIC, List.range_succ],
   C7_font_size_buckets (fun _ => 0) [⟨1, none⟩, ⟨2, none⟩] 4 LINEAR
     [⟨1, some 1⟩, ⟨2, some 4⟩] (by norm_num)
     (by norm_num [calculate_cloud, cloudMap, calculateTagWeight, calculateThresholds,
       listMin, listMax, applyFont, findBucket, LINEAR, LOGARITHMIC, List.range_succ])⟩

end Tagging
